import Mathlib

/-!
Verification of the blockchain example (`src/types.ts` of the repository):
an in-memory append-only hash chain.  The TypeScript classes
`BlockChainBlock` and `ArrayBlockChain` are embedded shallowly: buffers
become lists of byte values (`Nat < 256`), `Buffer.from(s, 'base64')`
becomes a lenient Base64 decoder, `Buffer.toString('base64')` a canonical
Base64 encoder, `node:crypto`'s SHA-256 a full executable SHA-256 over
byte lists, and `Date.UTC(...)` truncation becomes whole-second
truncation of a millisecond clock value.
-/

/-- Big-endian byte rendering of `v` on `k` bytes (most significant first). -/
def beBytes : Nat → Nat → List Nat
  | 0, _ => []
  | k + 1, v => beBytes k (v / 256) ++ [v % 256]

/-- UTF-8 encoding of a single character (standard 1-4 byte encoding). -/
def utf8EncodeChar (c : Char) : List Nat :=
  let n := c.toNat
  if n < 128 then [n]
  else if n < 2048 then [192 + n / 64, 128 + n % 64]
  else if n < 65536 then [224 + n / 4096, 128 + n / 64 % 64, 128 + n % 64]
  else [240 + n / 262144, 128 + n / 4096 % 64, 128 + n / 64 % 64, 128 + n % 64]

/-- UTF-8 encoding of a string, as the list of its byte values. -/
def utf8Encode (s : String) : List Nat :=
  (s.data.map utf8EncodeChar).flatten

/-- Character of the standard Base64 alphabet for a 6-bit value. -/
def base64Char (n : Nat) : Char :=
  if n < 26 then Char.ofNat (65 + n)
  else if n < 52 then Char.ofNat (97 + (n - 26))
  else if n < 62 then Char.ofNat (48 + (n - 52))
  else if n = 62 then '+'
  else '/'

/-- Value of a Base64 alphabet character, `none` for anything else
(padding `=` included).  The URL-safe variants `-` and `_` are accepted,
matching Node's decoder. -/
def base64CharValue (c : Char) : Option Nat :=
  let n := c.toNat
  if 65 ≤ n ∧ n ≤ 90 then some (n - 65)
  else if 97 ≤ n ∧ n ≤ 122 then some (26 + (n - 97))
  else if 48 ≤ n ∧ n ≤ 57 then some (52 + (n - 48))
  else if n = 43 ∨ n = 45 then some 62
  else if n = 47 ∨ n = 95 then some 63
  else none

/-- Canonical Base64 encoding (chunks of three bytes; `=`-padded tail),
as produced by Node's `Buffer.prototype.toString('base64')`. -/
def base64EncodeChunks : List Nat → List Char
  | x :: y :: z :: rest =>
      base64Char (x / 4) :: base64Char (x % 4 * 16 + y / 16) ::
      base64Char (y % 16 * 4 + z / 64) :: base64Char (z % 64) ::
      base64EncodeChunks rest
  | [x, y] => [base64Char (x / 4), base64Char (x % 4 * 16 + y / 16),
               base64Char (y % 16 * 4), '=']
  | [x] => [base64Char (x / 4), base64Char (x % 4 * 16), '=', '=']
  | [] => []

/-- Canonical Base64 rendering of a byte list as a string. -/
def base64Encode (bs : List Nat) : String :=
  String.mk (base64EncodeChunks bs)

/-- Decoding of a list of 6-bit values into bytes: groups of four values
give three bytes; a trailing group of two or three values gives one or
two bytes (leftover bits discarded); a lone trailing value gives nothing. -/
def base64DecodeVals : List Nat → List Nat
  | a :: b :: c :: d :: rest =>
      (a * 4 + b / 16) :: (b % 16 * 16 + c / 4) :: (c % 4 * 64 + d) ::
      base64DecodeVals rest
  | [a, b] => [a * 4 + b / 16]
  | [a, b, c] => [a * 4 + b / 16, b % 16 * 16 + c / 4]
  | _ => []

/-- Model of Node's `Buffer.from(s, 'base64')`: characters outside the
Base64 alphabet (padding, whitespace, anything invalid) are ignored, the
remaining 6-bit values are decoded, and trailing bits that do not fill a
byte are discarded. -/
def nodeBase64Decode (s : String) : List Nat :=
  base64DecodeVals (s.data.filterMap base64CharValue)

/-! SHA-256 over byte lists, all 32-bit words as `Nat` reduced mod `2 ^ 32`. -/

/-- Modulus for 32-bit words. -/
def w32 : Nat := 4294967296

/-- Addition mod `2 ^ 32`. -/
def add32 (a b : Nat) : Nat := (a + b) % w32

/-- Right rotation of a 32-bit word by `n` positions. -/
def rotr32 (n x : Nat) : Nat := (x / 2 ^ n + x % 2 ^ n * 2 ^ (32 - n)) % w32

/-- Logical right shift of a 32-bit word. -/
def shr32 (n x : Nat) : Nat := x / 2 ^ n

/-- SHA-256 `Ch` function. -/
def sha256Ch (e f g : Nat) : Nat :=
  Nat.xor (Nat.land e f) (Nat.land (Nat.xor e (w32 - 1)) g)

/-- SHA-256 `Maj` function. -/
def sha256Maj (a b c : Nat) : Nat :=
  Nat.xor (Nat.xor (Nat.land a b) (Nat.land a c)) (Nat.land b c)

/-- SHA-256 big sigma 0. -/
def bsig0 (x : Nat) : Nat := Nat.xor (Nat.xor (rotr32 2 x) (rotr32 13 x)) (rotr32 22 x)

/-- SHA-256 big sigma 1. -/
def bsig1 (x : Nat) : Nat := Nat.xor (Nat.xor (rotr32 6 x) (rotr32 11 x)) (rotr32 25 x)

/-- SHA-256 small sigma 0. -/
def ssig0 (x : Nat) : Nat := Nat.xor (Nat.xor (rotr32 7 x) (rotr32 18 x)) (shr32 3 x)

/-- SHA-256 small sigma 1. -/
def ssig1 (x : Nat) : Nat := Nat.xor (Nat.xor (rotr32 17 x) (rotr32 19 x)) (shr32 10 x)

/-- SHA-256 round constants. -/
def sha256K : List Nat :=
  [1116352408, 1899447441, 3049323471, 3921009573, 961987163,
   1508970993, 2453635748, 2870763221, 3624381080, 310598401,
   607225278, 1426881987, 1925078388, 2162078206, 2614888103,
   3248222580, 3835390401, 4022224774, 264347078, 604807628,
   770255983, 1249150122, 1555081692, 1996064986, 2554220882,
   2821834349, 2952996808, 3210313671, 3336571891, 3584528711,
   113926993, 338241895, 666307205, 773529912, 1294757372,
   1396182291, 1695183700, 1986661051, 2177026350, 2456956037,
   2730485921, 2820302411, 3259730800, 3345764771, 3516065817,
   3600352804, 4094571909, 275423344, 430227734, 506948616,
   659060556, 883997877, 958139571, 1322822218, 1537002063,
   1747873779, 1955562222, 2024104815, 2227730452, 2361852424,
   2428436474, 2756734187, 3204031479, 3329325298]

/-- SHA-256 initial hash state. -/
def sha256H0 : List Nat :=
  [1779033703, 3144134277, 1013904242, 2773480762, 1359893119,
   2600822924, 528734635, 1541459225]

/-- Message padding: append `0x80`, zero bytes to 56 mod 64, then the
bit length on eight big-endian bytes. -/
def sha256Pad (msg : List Nat) : List Nat :=
  let L := msg.length
  let zeros := (64 + 56 - (L + 1) % 64) % 64
  msg ++ [128] ++ List.replicate zeros 0 ++ beBytes 8 (L * 8)

/-- Auxiliary structural recursion for `chunksOf`, with the list length
as fuel so that the kernel can evaluate it. -/
def chunksOfAux (k : Nat) : Nat → List α → List (List α)
  | 0, _ => []
  | _, [] => []
  | fuel + 1, a :: rest => (a :: rest).take k :: chunksOfAux k fuel ((a :: rest).drop k)

/-- Split a list into chunks of `k` elements (`k > 0`). -/
def chunksOf (k : Nat) (l : List α) : List (List α) :=
  chunksOfAux k l.length l

/-- Sixteen big-endian 32-bit words of a 64-byte chunk. -/
def chunkWords (chunk : List Nat) : List Nat :=
  (chunksOf 4 chunk).map fun b =>
    b.getD 0 0 * 16777216 + b.getD 1 0 * 65536 + b.getD 2 0 * 256 + b.getD 3 0

/-- One extension step of the message schedule: append
`ssig1 w[n-2] + w[n-7] + ssig0 w[n-15] + w[n-16]`. -/
def scheduleStep (w : List Nat) : List Nat :=
  let n := w.length
  w ++ [add32 (add32 (ssig1 (w.getD (n - 2) 0)) (w.getD (n - 7) 0))
             (add32 (ssig0 (w.getD (n - 15) 0)) (w.getD (n - 16) 0))]

/-- Full 64-entry message schedule from the 16 chunk words. -/
def sha256Schedule (ws : List Nat) : List Nat :=
  Nat.repeat scheduleStep 48 ws

/-- One compression round on the eight-word working state. -/
def sha256Round (s : List Nat) (kw : Nat × Nat) : List Nat :=
  match s with
  | [a, b, c, d, e, f, g, h] =>
      let t1 := add32 h (add32 (bsig1 e) (add32 (sha256Ch e f g) (add32 kw.1 kw.2)))
      let t2 := add32 (bsig0 a) (sha256Maj a b c)
      [add32 t1 t2, a, b, c, add32 d t1, e, f, g]
  | s => s

/-- Compression of one 64-byte chunk into the running hash state. -/
def sha256Compress (hs : List Nat) (chunk : List Nat) : List Nat :=
  let w := sha256Schedule (chunkWords chunk)
  let final := (sha256K.zip w).foldl sha256Round hs
  List.zipWith add32 hs final

/-- SHA-256 digest of a byte list, as a list of 32 byte values. -/
def sha256 (msg : List Nat) : List Nat :=
  let hs := (chunksOf 64 (sha256Pad msg)).foldl sha256Compress sha256H0
  (hs.map (beBytes 4)).flatten

/-! The block and chain model, translated from `class BlockChainBlock`
and `class ArrayBlockChain`. -/

/-- A block: `index` (the public `index` field, an integer so the genesis
anchor can carry `-1`), the raw payload bytes (`#data`), the predecessor
reference (`#previousBlock`), and the stored timestamp in milliseconds
(`#timestamp`).  The type is inductive because a block holds an optional
reference to its predecessor block. -/
inductive BlockChainBlock : Type where
  | mk (index : Int) (data : List Nat) (previousBlock : Option BlockChainBlock)
       (timestamp : Nat)

/-- Model of the `BlockChainBlock` constructor.  The source computes
`Date.UTC(now.getUTCFullYear(), ..., now.getUTCSeconds())`, which for any
instant at or after the UNIX epoch equals the instant with its sub-second
milliseconds discarded, still expressed in milliseconds; `nowMs` is the
clock value `now` in milliseconds since the epoch. -/
def BlockChainBlock.make (index : Int) (data : List Nat)
    (previousBlock : Option BlockChainBlock) (nowMs : Nat) : BlockChainBlock :=
  .mk index data previousBlock (nowMs / 1000 * 1000)

/-- The public `index` field. -/
def BlockChainBlock.index : BlockChainBlock → Int
  | .mk i _ _ _ => i

/-- The private `#data` buffer (payload bytes). -/
def BlockChainBlock.rawData : BlockChainBlock → List Nat
  | .mk _ d _ _ => d

/-- The private `#previousBlock` reference. -/
def BlockChainBlock.previousBlock : BlockChainBlock → Option BlockChainBlock
  | .mk _ _ p _ => p

/-- Getter `timestamp`: returns the stored `#timestamp` value unchanged. -/
def BlockChainBlock.timestamp : BlockChainBlock → Nat
  | .mk _ _ _ t => t

/-- Getter `data`: `this.#data.toString('base64')`. -/
def BlockChainBlock.data (b : BlockChainBlock) : String :=
  base64Encode b.rawData

/-- Getter `hash` together with getter `previousHash`, translated as one
recursive function over the predecessor chain:
`hash` is the Base64 rendering of the SHA-256 digest of the UTF-8 bytes of
the template string `` `${index}\n${previousHash}\n${timestamp}\n${data}` ``,
and `previousHash` is `this.#previousBlock?.hash || ''` (since a hash
string here is `''` exactly when the predecessor is absent, the JS
falsy-or is the plain predecessor hash). -/
def BlockChainBlock.hash : BlockChainBlock → String
  | .mk i d p t =>
      let prevHash := match p with
        | none => ""
        | some q => BlockChainBlock.hash q
      base64Encode (sha256 (utf8Encode
        (toString i ++ "\n" ++ prevHash ++ "\n" ++ toString t ++ "\n" ++
         base64Encode d)))

/-- Getter `previousHash`: `this.#previousBlock?.hash || ''`. -/
def BlockChainBlock.previousHash (b : BlockChainBlock) : String :=
  match b.previousBlock with
  | none => ""
  | some q => q.hash

/-- The chain: the private ordered list `#blocks` and the private
`#genesisBlock`. -/
structure ArrayBlockChain : Type where
  blocks : List BlockChainBlock
  genesisBlock : BlockChainBlock

/-- Model of the `ArrayBlockChain` constructor: no real blocks yet and a
genesis anchor `new BlockChainBlock(-1, Buffer.alloc(0), undefined)`
created at clock value `nowMs`. -/
def ArrayBlockChain.make (nowMs : Nat) : ArrayBlockChain :=
  ⟨[], BlockChainBlock.make (-1) [] none nowMs⟩

/-- The private getter `#previousBlock`:
`this.#blocks[this.#blocks.length - 1] ?? this.#genesisBlock`. -/
def ArrayBlockChain.previousBlock (c : ArrayBlockChain) : BlockChainBlock :=
  c.blocks.getLast?.getD c.genesisBlock

/-- Method `addBlock(data)`: decode the Base64 argument into payload
bytes, build a block after the current tail, push it, return it.  The
clock value of the construction instant is passed as `nowMs`. -/
def ArrayBlockChain.addBlock (c : ArrayBlockChain) (data : String) (nowMs : Nat) :
    ArrayBlockChain × BlockChainBlock :=
  let previousBlock := c.previousBlock
  let newBlock := BlockChainBlock.make (previousBlock.index + 1)
    (nodeBase64Decode data) (some previousBlock) nowMs
  (⟨c.blocks ++ [newBlock], c.genesisBlock⟩, newBlock)

/-- State of an iterator returned by `[Symbol.asyncIterator]()`: the copy
`[...this.#blocks]` taken when the iterator was created, and the mutable
`cursorIndex`. -/
structure ChainIterator : Type where
  copyOfBlocks : List BlockChainBlock
  cursorIndex : Nat

/-- Method `[Symbol.asyncIterator]()`: snapshot the block list and start
the cursor at zero. -/
def ArrayBlockChain.asyncIterator (c : ArrayBlockChain) : ChainIterator :=
  ⟨c.blocks, 0⟩

/-- One result of the iterator's `next()`: the `done` flag and the
`value` (which is `undefined`, here `none`, once the copy is exhausted). -/
structure IterStep : Type where
  done : Bool
  value : Option BlockChainBlock

/-- The iterator's `next()`: read the cursor, advance it, and report
`done: currentIndex >= copyOfBlocks.length` with
`value: copyOfBlocks[currentIndex]`. -/
def ChainIterator.next (it : ChainIterator) : IterStep × ChainIterator :=
  let currentIndex := it.cursorIndex
  (⟨decide (it.copyOfBlocks.length ≤ currentIndex), it.copyOfBlocks.get? currentIndex⟩,
   ⟨it.copyOfBlocks, currentIndex + 1⟩)

/-- The values a `for await` loop draws from the iterator: call `next()`
until `done` and collect the yielded blocks in order. -/
def ChainIterator.traverse (it : ChainIterator) : List BlockChainBlock :=
  if h : (it.next).1.done = true then []
  else match (it.next).1.value with
    | none => []
    | some b => b :: ChainIterator.traverse (it.next).2
termination_by it.copyOfBlocks.length - it.cursorIndex
decreasing_by
  simp only [ChainIterator.next, decide_eq_true_eq, Nat.not_le] at h ⊢
  omega

/-- Running a list of `addBlock` calls (argument string and clock value
per call) against a chain, collecting the returned blocks in order. -/
def appendAll (c : ArrayBlockChain) : List (String × Nat) →
    ArrayBlockChain × List BlockChainBlock
  | [] => (c, [])
  | a :: rest =>
      let r1 := c.addBlock a.1 a.2
      let r2 := appendAll r1.1 rest
      (r2.1, r1.2 :: r2.2)

/-- The chain obtained from a fresh chain (created at clock value `g`)
after the given sequence of `addBlock` calls. -/
def chainAfter (g : Nat) (apps : List (String × Nat)) : ArrayBlockChain :=
  (appendAll (ArrayBlockChain.make g) apps).1

/-! Base64 lemmas. -/

/-- Decoding a character the encoder produced recovers the 6-bit value. -/
theorem base64CharValue_base64Char : ∀ n, n < 64 →
    base64CharValue (base64Char n) = some n := by decide

/-- The padding character carries no value. -/
theorem base64CharValue_pad : base64CharValue '=' = none := by decide

/-- Every value produced by `base64CharValue` is a 6-bit value. -/
theorem base64CharValue_lt {c : Char} {v : Nat}
    (h : base64CharValue c = some v) : v < 64 := by
  simp only [base64CharValue] at h
  split at h <;> try (injection h with h; omega)
  split at h <;> try (injection h with h; omega)
  split at h <;> try (injection h with h; omega)
  split at h <;> try (injection h with h; omega)
  split at h
  · injection h with h; omega
  · exact absurd h (by simp)

/-- Every byte produced by `base64DecodeVals` from 6-bit values is a byte. -/
theorem base64DecodeVals_lt : ∀ vs : List Nat, (∀ v ∈ vs, v < 64) →
    ∀ b ∈ base64DecodeVals vs, b < 256
  | a :: b :: c :: d :: rest, h => by
      have ha := h a (by simp)
      have hb := h b (by simp)
      have hc := h c (by simp)
      have hd := h d (by simp)
      have hrest : ∀ v ∈ rest, v < 64 := fun v hv => h v (by simp [hv])
      intro x hx
      simp only [base64DecodeVals, List.mem_cons] at hx
      rcases hx with rfl | rfl | rfl | hx
      · omega
      · omega
      · omega
      · exact base64DecodeVals_lt rest hrest x hx
  | [a, b], h => by
      have ha := h a (by simp)
      have hb := h b (by simp)
      intro x hx
      simp only [base64DecodeVals, List.mem_cons, List.not_mem_nil, or_false] at hx
      omega
  | [a, b, c], h => by
      have ha := h a (by simp)
      have hb := h b (by simp)
      have hc := h c (by simp)
      intro x hx
      simp only [base64DecodeVals, List.mem_cons, List.not_mem_nil, or_false] at hx
      rcases hx with rfl | rfl
      · omega
      · omega
  | [], _ => by intro x hx; simp [base64DecodeVals] at hx
  | [a], _ => by intro x hx; simp [base64DecodeVals] at hx

/-- Every byte produced by the Node-style decoder is a byte value. -/
theorem nodeBase64Decode_lt (s : String) : ∀ b ∈ nodeBase64Decode s, b < 256 := by
  refine base64DecodeVals_lt _ (fun v hv => ?_)
  rcases List.mem_filterMap.mp hv with ⟨c, _, hc⟩
  exact base64CharValue_lt hc

/-- Round trip: decoding a canonical Base64 encoding of a byte list
recovers the bytes. -/
theorem decode_encode : ∀ bs : List Nat, (∀ b ∈ bs, b < 256) →
    nodeBase64Decode (base64Encode bs) = bs
  | x :: y :: z :: rest, h => by
      have hx := h x (by simp)
      have hy := h y (by simp)
      have hz := h z (by simp)
      have hrest : ∀ b ∈ rest, b < 256 := fun b hb => h b (by simp [hb])
      have ih := decode_encode rest hrest
      simp only [nodeBase64Decode, base64Encode] at ih ⊢
      simp only [base64EncodeChunks, List.filterMap_cons,
        base64CharValue_base64Char _ (by omega : x / 4 < 64),
        base64CharValue_base64Char _ (by omega : x % 4 * 16 + y / 16 < 64),
        base64CharValue_base64Char _ (by omega : y % 16 * 4 + z / 64 < 64),
        base64CharValue_base64Char _ (by omega : z % 64 < 64),
        base64DecodeVals, List.cons.injEq] at ih ⊢
      refine ⟨by omega, by omega, by omega, ih⟩
  | [x, y], h => by
      have hx := h x (by simp)
      have hy := h y (by simp)
      simp only [nodeBase64Decode, base64Encode, base64EncodeChunks,
        List.filterMap_cons,
        base64CharValue_base64Char _ (by omega : x / 4 < 64),
        base64CharValue_base64Char _ (by omega : x % 4 * 16 + y / 16 < 64),
        base64CharValue_base64Char _ (by omega : y % 16 * 4 < 64),
        base64CharValue_pad, List.filterMap_nil, base64DecodeVals,
        List.cons.injEq, and_true]
      exact ⟨by omega, by omega⟩
  | [x], h => by
      have hx := h x (by simp)
      simp only [nodeBase64Decode, base64Encode, base64EncodeChunks,
        List.filterMap_cons,
        base64CharValue_base64Char _ (by omega : x / 4 < 64),
        base64CharValue_base64Char _ (by omega : x % 4 * 16 < 64),
        base64CharValue_pad, List.filterMap_nil, base64DecodeVals,
        List.cons.injEq, and_true]
      omega
  | [], _ => by rfl

/-! Equation lemmas for the accessors, so goals never expose raw `match`
expressions. -/

theorem BlockChainBlock.index_make (i : Int) (d : List Nat)
    (p : Option BlockChainBlock) (t : Nat) :
    (BlockChainBlock.make i d p t).index = i := rfl

theorem BlockChainBlock.rawData_make (i : Int) (d : List Nat)
    (p : Option BlockChainBlock) (t : Nat) :
    (BlockChainBlock.make i d p t).rawData = d := rfl

theorem BlockChainBlock.previousBlock_make (i : Int) (d : List Nat)
    (p : Option BlockChainBlock) (t : Nat) :
    (BlockChainBlock.make i d p t).previousBlock = p := rfl

theorem BlockChainBlock.timestamp_make (i : Int) (d : List Nat)
    (p : Option BlockChainBlock) (t : Nat) :
    (BlockChainBlock.make i d p t).timestamp = t / 1000 * 1000 := rfl

theorem ArrayBlockChain.addBlock_snd (c : ArrayBlockChain) (d : String) (t : Nat) :
    (c.addBlock d t).2 = BlockChainBlock.make (c.previousBlock.index + 1)
      (nodeBase64Decode d) (some c.previousBlock) t := rfl

theorem ArrayBlockChain.addBlock_genesis (c : ArrayBlockChain) (d : String) (t : Nat) :
    (c.addBlock d t).1.genesisBlock = c.genesisBlock := rfl

/-- The state component of `addBlock` grows the list by the returned
block. -/
theorem addBlock_blocks (c : ArrayBlockChain) (d : String) (t : Nat) :
    (c.addBlock d t).1.blocks = c.blocks ++ [(c.addBlock d t).2] := rfl

/-! Iterator and append lemmas. -/

/-- A traversal yields exactly the part of the snapshot at or after the
cursor. -/
theorem ChainIterator.traverse_eq (it : ChainIterator) :
    it.traverse = it.copyOfBlocks.drop it.cursorIndex := by
  obtain ⟨l, k⟩ := it
  suffices main : ∀ n (l : List BlockChainBlock) (k : Nat), l.length - k ≤ n →
      ChainIterator.traverse ⟨l, k⟩ = l.drop k from main (l.length - k) l k le_rfl
  intro n
  induction n with
  | zero =>
      intro l k hk
      have hlen : l.length ≤ k := by omega
      rw [ChainIterator.traverse]
      simp [ChainIterator.next, hlen, List.drop_eq_nil_of_le hlen]
  | succ n ih =>
      intro l k hk
      rw [ChainIterator.traverse]
      by_cases hlen : l.length ≤ k
      · simp [ChainIterator.next, hlen, List.drop_eq_nil_of_le hlen]
      · have hk2 : k < l.length := by omega
        have hget : l.get? k = some (l.get ⟨k, hk2⟩) := List.get?_eq_get hk2
        simp only [ChainIterator.next, hget, decide_eq_true_eq, dif_neg hlen]
        rw [ih l (k + 1) (by omega), List.drop_eq_getElem_cons hk2]
        simp [List.get_eq_getElem]

/-- The blocks of the chain after a run of appends are the original
blocks followed by the blocks the appends returned. -/
theorem appendAll_blocks (c : ArrayBlockChain) (apps : List (String × Nat)) :
    (appendAll c apps).1.blocks = c.blocks ++ (appendAll c apps).2 := by
  induction apps generalizing c with
  | nil => simp [appendAll]
  | cons a rest ih =>
      simp only [appendAll]
      rw [ih]
      simp [ArrayBlockChain.addBlock]

/-- Appending preserves the genesis anchor. -/
theorem appendAll_genesis (c : ArrayBlockChain) (apps : List (String × Nat)) :
    (appendAll c apps).1.genesisBlock = c.genesisBlock := by
  induction apps generalizing c with
  | nil => rfl
  | cons a rest ih => simp only [appendAll]; rw [ih]; rfl

/-- One returned block per append call. -/
theorem appendAll_count (c : ArrayBlockChain) (apps : List (String × Nat)) :
    (appendAll c apps).2.length = apps.length := by
  induction apps generalizing c with
  | nil => rfl
  | cons a rest ih => simp only [appendAll, List.length_cons]; rw [ih]

/-- Splitting a run of appends. -/
theorem appendAll_append (c : ArrayBlockChain) (l1 l2 : List (String × Nat)) :
    (appendAll c (l1 ++ l2)).1 = (appendAll (appendAll c l1).1 l2).1 := by
  induction l1 generalizing c with
  | nil => rfl
  | cons a rest ih =>
      simp only [List.cons_append, appendAll]
      exact ih _

/-! The chain invariant maintained by `addBlock`. -/

/-- Invariant of every reachable chain state: the genesis anchor has
index `-1` and a whole-second timestamp; the stored blocks carry indices
`0, 1, ..., n-1` in order; the current tail's index is one less than the
block count; every stored block points to its predecessor in the list
(the first one to the genesis anchor); and every stored block has a
whole-second timestamp and byte-valued payload. -/
def ChainInv (c : ArrayBlockChain) : Prop :=
  c.genesisBlock.index = -1 ∧
  1000 ∣ c.genesisBlock.timestamp ∧
  c.blocks.map BlockChainBlock.index = (List.range c.blocks.length).map Int.ofNat ∧
  c.previousBlock.index + 1 = Int.ofNat c.blocks.length ∧
  List.Chain' (fun a b => b.previousBlock = some a) c.blocks ∧
  (∀ b, c.blocks.head? = some b → b.previousBlock = some c.genesisBlock) ∧
  (∀ b ∈ c.blocks, 1000 ∣ b.timestamp ∧ ∀ v ∈ b.rawData, v < 256)

/-- A freshly created chain satisfies the invariant. -/
theorem chainInv_make (g : Nat) : ChainInv (ArrayBlockChain.make g) := by
  refine ⟨rfl, ⟨g / 1000, ?_⟩, rfl, rfl, List.chain'_nil, ?_, ?_⟩
  · show g / 1000 * 1000 = 1000 * (g / 1000)
    omega
  · intro b hb
    simp [ArrayBlockChain.make] at hb
  · intro b hb
    simp [ArrayBlockChain.make] at hb

/-- `addBlock` preserves the invariant. -/
theorem chainInv_addBlock (c : ArrayBlockChain) (d : String) (t : Nat)
    (h : ChainInv c) : ChainInv (c.addBlock d t).1 := by
  obtain ⟨hg, hgt, hidx, htail, hchain, hhead, hblocks⟩ := h
  refine ⟨?_, ?_, ?_, ?_, ?_, ?_, ?_⟩
  · rw [ArrayBlockChain.addBlock_genesis]; exact hg
  · rw [ArrayBlockChain.addBlock_genesis]; exact hgt
  · rw [addBlock_blocks, List.map_append, hidx, ArrayBlockChain.addBlock_snd,
      List.map_cons, List.map_nil, BlockChainBlock.index_make]
    simp only [List.length_append, List.length_cons, List.length_nil]
    rw [List.range_succ, List.map_append, List.map_cons, List.map_nil, htail]
  · show ((c.addBlock d t).1.blocks.getLast?.getD (c.addBlock d t).1.genesisBlock).index + 1 = _
    rw [addBlock_blocks, List.getLast?_concat, Option.getD_some,
      ArrayBlockChain.addBlock_snd, BlockChainBlock.index_make, htail]
    simp only [List.length_append, List.length_cons, List.length_nil,
      Int.ofNat_eq_coe]
    omega
  · rw [addBlock_blocks, List.chain'_append]
    refine ⟨hchain, List.chain'_singleton _, fun x hx y hy => ?_⟩
    simp only [List.head?_cons, Option.mem_def, Option.some.injEq] at hy
    subst hy
    rw [ArrayBlockChain.addBlock_snd, BlockChainBlock.previousBlock_make,
      Option.some.injEq]
    simp only [Option.mem_def] at hx
    show c.blocks.getLast?.getD c.genesisBlock = x
    rw [hx, Option.getD_some]
  · intro b hb
    rw [ArrayBlockChain.addBlock_genesis]
    rw [addBlock_blocks] at hb
    rcases hcase : c.blocks with _ | ⟨b0, rest⟩
    · rw [hcase] at hb
      simp only [List.nil_append, List.head?_cons, Option.some.injEq] at hb
      subst hb
      rw [ArrayBlockChain.addBlock_snd, BlockChainBlock.previousBlock_make,
        Option.some.injEq]
      show c.blocks.getLast?.getD c.genesisBlock = c.genesisBlock
      rw [hcase]
      rfl
    · rw [hcase] at hb
      simp only [List.cons_append, List.head?_cons, Option.some.injEq] at hb
      subst hb
      exact hhead b0 (by rw [hcase]; rfl)
  · intro b hb
    rw [addBlock_blocks, List.mem_append] at hb
    rcases hb with hb | hb
    · exact hblocks b hb
    · simp only [List.mem_singleton] at hb
      subst hb
      rw [ArrayBlockChain.addBlock_snd]
      refine ⟨⟨t / 1000, ?_⟩, fun v hv => ?_⟩
      · rw [BlockChainBlock.timestamp_make]
        omega
      · rw [BlockChainBlock.rawData_make] at hv
        exact nodeBase64Decode_lt d v hv

/-- Every chain reachable by appends from a chain satisfying the
invariant satisfies it too. -/
theorem chainInv_appendAll (c : ArrayBlockChain) (apps : List (String × Nat))
    (h : ChainInv c) : ChainInv (appendAll c apps).1 := by
  induction apps generalizing c with
  | nil => exact h
  | cons a rest ih => exact ih _ (chainInv_addBlock c a.1 a.2 h)

/-- The invariant holds after any run of appends on a fresh chain. -/
theorem chainAfter_inv (g : Nat) (apps : List (String × Nat)) :
    ChainInv (chainAfter g apps) :=
  chainInv_appendAll _ apps (chainInv_make g)

/-- Fallback block for positional access in statements; positions are
always in range where it is used. -/
def anyBlock : BlockChainBlock := .mk 0 [] none 0

/-- From the invariant: the block stored at position `i` has index `i`. -/
theorem blocks_index_get? (c : ArrayBlockChain) (h : ChainInv c) (i : Nat)
    (b : BlockChainBlock) (hb : c.blocks.get? i = some b) :
    b.index = Int.ofNat i := by
  have h2 := congrArg (fun l => l.get? i) h.2.2.1
  simp only [List.get?_eq_getElem?, List.getElem?_map] at h2
  rw [List.get?_eq_getElem?] at hb
  have hlt : i < c.blocks.length := by
    by_contra hge
    rw [List.getElem?_eq_none (by omega)] at hb
    exact Option.noConfusion hb
  rw [hb, List.getElem?_range (by simpa using hlt)] at h2
  simpa using h2

/-- From the invariant: the block stored at position `i + 1` points back
to the block stored at position `i`. -/
theorem blocks_link_get? (c : ArrayBlockChain) (h : ChainInv c) (i : Nat)
    (a b : BlockChainBlock) (ha : c.blocks.get? i = some a)
    (hb : c.blocks.get? (i + 1) = some b) :
    b.previousBlock = some a := by
  have hchain := h.2.2.2.2.1
  rw [List.chain'_iff_get] at hchain
  have hlt : i + 1 < c.blocks.length := by
    rw [List.get?_eq_getElem?] at hb
    by_contra hge
    rw [List.getElem?_eq_none (by omega)] at hb
    exact Option.noConfusion hb
  have hr := hchain i (by omega)
  rw [List.get?_eq_get (by omega)] at ha
  rw [List.get?_eq_get (by omega)] at hb
  injection ha with ha
  injection hb with hb
  rw [← ha, ← hb]
  exact hr

/-- From the invariant: every stored block's index is in `[0, n)`. -/
theorem blocks_mem_index (c : ArrayBlockChain) (h : ChainInv c)
    (b : BlockChainBlock) (hb : b ∈ c.blocks) :
    0 ≤ b.index ∧ b.index < Int.ofNat c.blocks.length := by
  have hm : b.index ∈ c.blocks.map BlockChainBlock.index :=
    List.mem_map_of_mem _ hb
  rw [h.2.2.1] at hm
  rcases List.mem_map.mp hm with ⟨j, hj, hjeq⟩
  rw [List.mem_range] at hj
  rw [← hjeq]
  simp only [Int.ofNat_eq_coe]
  omega

/-- When a block has a predecessor reference, `previousHash` is that
predecessor's `hash`. -/
theorem BlockChainBlock.previousHash_eq (b q : BlockChainBlock)
    (h : b.previousBlock = some q) : b.previousHash = q.hash := by
  rw [BlockChainBlock.previousHash, h]

/-- Length of the chain after a run of appends on a fresh chain. -/
theorem chainAfter_length (g : Nat) (apps : List (String × Nat)) :
    (chainAfter g apps).blocks.length = apps.length := by
  rw [chainAfter, appendAll_blocks]
  simp [ArrayBlockChain.make, appendAll_count]

/-! The claims. -/

/-- C1: for every n ≥ 1, after n appends to a freshly created chain, for
every i in [1, n-1], the block at position i has `previousHash` equal to
the `hash` of the block at position i-1 and has index i. -/
theorem claim_chain_linkage (g : Nat) (apps : List (String × Nat)) (i : Nat)
    (h1 : 1 ≤ i) (h2 : i < apps.length) :
    ((chainAfter g apps).blocks.getD i anyBlock).previousHash
      = ((chainAfter g apps).blocks.getD (i - 1) anyBlock).hash ∧
    ((chainAfter g apps).blocks.getD i anyBlock).index = Int.ofNat i := by
  have hinv := chainAfter_inv g apps
  have hlen := chainAfter_length g apps
  obtain ⟨j, rfl⟩ : ∃ j, i = j + 1 := ⟨i - 1, by omega⟩
  have hjlt : j < (chainAfter g apps).blocks.length := by omega
  have hjlt2 : j + 1 < (chainAfter g apps).blocks.length := by omega
  have ha := List.get?_eq_get (l := (chainAfter g apps).blocks) hjlt
  have hb := List.get?_eq_get (l := (chainAfter g apps).blocks) hjlt2
  have hgetD : ∀ (k : Nat) (hk : k < (chainAfter g apps).blocks.length),
      (chainAfter g apps).blocks.getD k anyBlock
        = (chainAfter g apps).blocks.get ⟨k, hk⟩ := by
    intro k hk
    rw [List.getD_eq_getElem?_getD, List.getElem?_eq_getElem hk]
    rfl
  rw [hgetD (j + 1) hjlt2, show j + 1 - 1 = j from rfl, hgetD j hjlt]
  refine ⟨?_, ?_⟩
  · exact BlockChainBlock.previousHash_eq _ _
      (blocks_link_get? _ hinv j _ _ ha hb)
  · exact blocks_index_get? _ hinv (j + 1) _ hb

/-- C1 witness: the linkage at position 1 of a concrete two-append run. -/
theorem claim_chain_linkage_witness :
    ((chainAfter 0 [("QQ==", 0), ("", 1000)]).blocks.getD 1 anyBlock).previousHash
      = ((chainAfter 0 [("QQ==", 0), ("", 1000)]).blocks.getD 0 anyBlock).hash ∧
    ((chainAfter 0 [("QQ==", 0), ("", 1000)]).blocks.getD 1 anyBlock).index
      = Int.ofNat 1 :=
  claim_chain_linkage 0 [("QQ==", 0), ("", 1000)] 1 (by decide) (by decide)

set_option maxRecDepth 100000 in
/-- C2 counterexample: on a fresh chain created at clock 0, the block
returned by the first append does not have `previousHash` equal to the
empty string (it is the Base64 SHA-256 hash of the genesis anchor), so
the claim fails at this input. -/
theorem claim_genesis_counterexample :
    ¬ (((ArrayBlockChain.make 0).addBlock "" 0).2.previousHash = "" ∧
       ((ArrayBlockChain.make 0).addBlock "" 0).2.index = 0) := by
  decide

/-- C2 (amended): the first block produced by append on a freshly created
chain has index 0 and `previousHash` equal to the hash of the genesis
anchor, not the empty string. -/
theorem claim_genesis_link (g : Nat) (data : String) (t : Nat) :
    ((ArrayBlockChain.make g).addBlock data t).2.index = 0 ∧
    ((ArrayBlockChain.make g).addBlock data t).2.previousHash
      = (ArrayBlockChain.make g).genesisBlock.hash := by
  constructor
  · rw [ArrayBlockChain.addBlock_snd, BlockChainBlock.index_make]
    have hprev : (ArrayBlockChain.make g).previousBlock
        = BlockChainBlock.make (-1) [] none g := rfl
    rw [hprev, BlockChainBlock.index_make]
    decide
  · apply BlockChainBlock.previousHash_eq
    rw [ArrayBlockChain.addBlock_snd, BlockChainBlock.previousBlock_make]
    rfl

/-- C3: the hash accessor returns the Base64 rendering of the SHA-256
digest of the UTF-8 encoding of
"{index}\n{previousHash}\n{timestamp}\n{payloadBase64}", where
`payloadBase64` is the payload re-encoded as Base64 (the value of the
data accessor). -/
theorem claim_hash_formula (b : BlockChainBlock) :
    b.hash = base64Encode (sha256 (utf8Encode
      (toString b.index ++ "\n" ++ b.previousHash ++ "\n" ++
       toString b.timestamp ++ "\n" ++ base64Encode b.rawData))) ∧
    b.data = base64Encode b.rawData := by
  cases b with
  | mk i d p t => cases p <;> exact ⟨rfl, rfl⟩

/-- C4 counterexample: for a block constructed at clock value 86400000
milliseconds (one day after the epoch, i.e. 86400 seconds), the
timestamp accessor does not return the instant as seconds — it returns
the millisecond value. -/
theorem claim_timestamp_counterexample :
    (BlockChainBlock.make 0 [] none 86400000).timestamp ≠ 86400000 / 1000 := by
  decide

/-- C4 (amended): the creation instant is captured at construction with
sub-second components discarded, and the timestamp accessor returns that
truncated instant still expressed in milliseconds since the epoch (a
multiple of 1000), not in seconds. -/
theorem claim_timestamp_truncated (i : Int) (d : List Nat)
    (p : Option BlockChainBlock) (nowMs : Nat) :
    (BlockChainBlock.make i d p nowMs).timestamp = nowMs / 1000 * 1000 ∧
    1000 ∣ (BlockChainBlock.make i d p nowMs).timestamp := by
  rw [BlockChainBlock.timestamp_make]
  exact ⟨rfl, by omega⟩

/-- C5: after any run of appends the block count equals the number of
append calls, and any later run of appends leaves every previously
stored block — in particular its hash and data values — unchanged. -/
theorem claim_append_only (g : Nat) (apps extra : List (String × Nat)) :
    (chainAfter g apps).blocks.length = apps.length ∧
    (chainAfter g (apps ++ extra)).blocks.take apps.length
      = (chainAfter g apps).blocks ∧
    ((chainAfter g (apps ++ extra)).blocks.take apps.length).map BlockChainBlock.hash
      = (chainAfter g apps).blocks.map BlockChainBlock.hash ∧
    ((chainAfter g (apps ++ extra)).blocks.take apps.length).map BlockChainBlock.data
      = (chainAfter g apps).blocks.map BlockChainBlock.data := by
  have hsplit : (chainAfter g (apps ++ extra)).blocks
      = (chainAfter g apps).blocks ++ (appendAll (chainAfter g apps) extra).2 := by
    rw [chainAfter, appendAll_append, appendAll_blocks]
    rfl
  have htake : (chainAfter g (apps ++ extra)).blocks.take apps.length
      = (chainAfter g apps).blocks := by
    rw [hsplit, ← chainAfter_length g apps, List.take_left]
  exact ⟨chainAfter_length g apps, htake, by rw [htake], by rw [htake]⟩

/-- C6: an iteration snapshot taken before an append yields exactly the
blocks present at snapshot time and never includes the newly appended
block, regardless of when the snapshot is consumed. -/
theorem claim_snapshot_isolation (g : Nat) (apps : List (String × Nat))
    (data : String) (t : Nat) :
    ((chainAfter g apps).asyncIterator).traverse = (chainAfter g apps).blocks ∧
    ((chainAfter g apps).addBlock data t).2 ∉
      ((chainAfter g apps).asyncIterator).traverse := by
  have htrav : ((chainAfter g apps).asyncIterator).traverse
      = (chainAfter g apps).blocks := by
    rw [ChainIterator.traverse_eq]
    rfl
  refine ⟨htrav, ?_⟩
  rw [htrav]
  intro hmem
  have hinv := chainAfter_inv g apps
  have hidx := (blocks_mem_index _ hinv _ hmem).2
  have hnew : ((chainAfter g apps).addBlock data t).2.index
      = Int.ofNat (chainAfter g apps).blocks.length := by
    rw [ArrayBlockChain.addBlock_snd, BlockChainBlock.index_make, hinv.2.2.2.1]
  rw [hnew] at hidx
  simp at hidx

/-- C6 witness: a concrete snapshot taken before a concrete append. -/
theorem claim_snapshot_isolation_witness :
    ((chainAfter 0 [("QQ==", 0)]).asyncIterator).traverse
      = (chainAfter 0 [("QQ==", 0)]).blocks ∧
    ((chainAfter 0 [("QQ==", 0)]).addBlock "" 5).2 ∉
      ((chainAfter 0 [("QQ==", 0)]).asyncIterator).traverse :=
  claim_snapshot_isolation 0 [("QQ==", 0)] "" 5

/-- C7: Base64-decoding the data accessor of any stored block yields
exactly the payload bytes it was constructed with; in particular the
block returned by an append carries exactly the bytes decoded from the
append's argument. -/
theorem claim_data_roundtrip (g : Nat) (apps : List (String × Nat))
    (data : String) (t : Nat) :
    (∀ b ∈ (chainAfter g apps).blocks, nodeBase64Decode b.data = b.rawData) ∧
    nodeBase64Decode (((chainAfter g apps).addBlock data t).2.data)
      = nodeBase64Decode data ∧
    ((chainAfter g apps).addBlock data t).2.rawData = nodeBase64Decode data := by
  have hinv := chainAfter_inv g apps
  refine ⟨?_, ?_, rfl⟩
  · intro b hb
    exact decode_encode b.rawData (hinv.2.2.2.2.2.2 b hb).2
  · exact decode_encode _ (nodeBase64Decode_lt data)

/-- C7 witness: a concrete append (of the encoding of the single byte 65)
whose payload round-trips, on a chain that already holds an
empty-payload block. -/
theorem claim_data_roundtrip_witness :
    (∀ b ∈ (chainAfter 0 [("", 0)]).blocks, nodeBase64Decode b.data = b.rawData) ∧
    nodeBase64Decode (((chainAfter 0 [("", 0)]).addBlock "QQ==" 3).2.data)
      = nodeBase64Decode "QQ==" ∧
    ((chainAfter 0 [("", 0)]).addBlock "QQ==" 3).2.rawData
      = nodeBase64Decode "QQ==" :=
  claim_data_roundtrip 0 [("", 0)] "QQ==" 3

/-- C8: traversing a chain snapshot yields exactly the blocks the append
calls produced, in ascending index order 0, 1, ..., n-1, and never the
genesis anchor. -/
theorem claim_iterate_order (g : Nat) (apps : List (String × Nat)) :
    ((chainAfter g apps).asyncIterator).traverse
      = (appendAll (ArrayBlockChain.make g) apps).2 ∧
    ((chainAfter g apps).asyncIterator).traverse.map BlockChainBlock.index
      = (List.range apps.length).map Int.ofNat ∧
    (chainAfter g apps).genesisBlock ∉
      ((chainAfter g apps).asyncIterator).traverse := by
  have htrav : ((chainAfter g apps).asyncIterator).traverse
      = (chainAfter g apps).blocks := by
    rw [ChainIterator.traverse_eq]
    rfl
  have hinv := chainAfter_inv g apps
  refine ⟨?_, ?_, ?_⟩
  · rw [htrav, chainAfter, appendAll_blocks]
    rfl
  · rw [htrav, hinv.2.2.1, chainAfter_length]
  · rw [htrav]
    intro hmem
    have h0 := (blocks_mem_index _ hinv _ hmem).1
    have hg : (chainAfter g apps).genesisBlock.index = -1 := hinv.1
    rw [hg] at h0
    exact absurd h0 (by decide)

/-- C8 witness: a concrete two-append traversal. -/
theorem claim_iterate_order_witness :
    ((chainAfter 7 [("QQ==", 0), ("", 2000)]).asyncIterator).traverse
      = (appendAll (ArrayBlockChain.make 7) [("QQ==", 0), ("", 2000)]).2 ∧
    ((chainAfter 7 [("QQ==", 0), ("", 2000)]).asyncIterator).traverse.map
        BlockChainBlock.index
      = (List.range (List.length [("QQ==", 0), ("", 2000)])).map Int.ofNat ∧
    (chainAfter 7 [("QQ==", 0), ("", 2000)]).genesisBlock ∉
      ((chainAfter 7 [("QQ==", 0), ("", 2000)]).asyncIterator).traverse :=
  claim_iterate_order 7 [("QQ==", 0), ("", 2000)]

/-- C9: `addBlock` stores only the bytes decoded from its Base64
argument, so the data accessor returns the canonical Base64 re-encoding
of those bytes — which differs from the original argument when the
argument is not canonical Base64, e.g. "QQ" (missing padding). -/
theorem claim_data_canonical :
    (∀ (c : ArrayBlockChain) (data : String) (t : Nat),
        (c.addBlock data t).2.data = base64Encode (nodeBase64Decode data)) ∧
    base64Encode (nodeBase64Decode "QQ") ≠ "QQ" := by
  refine ⟨fun c data t => rfl, by decide⟩

/-- C10: every block ever constructed — the genesis anchor and every
appended block — stores a timestamp divisible by 1000 (a non-negative
whole number of milliseconds on a whole-second boundary), after every
operation on the chain. -/
theorem claim_timestamps_whole_second (g : Nat) (apps : List (String × Nat)) :
    1000 ∣ (chainAfter g apps).genesisBlock.timestamp ∧
    ∀ b ∈ (chainAfter g apps).blocks, 1000 ∣ b.timestamp := by
  have hinv := chainAfter_inv g apps
  exact ⟨hinv.2.1, fun b hb => (hinv.2.2.2.2.2.2 b hb).1⟩

/-- C10 witness: a concrete run whose genesis and appended block all have
whole-second timestamps. -/
theorem claim_timestamps_whole_second_witness :
    1000 ∣ (chainAfter 123456 [("QQ==", 7890)]).genesisBlock.timestamp ∧
    ∀ b ∈ (chainAfter 123456 [("QQ==", 7890)]).blocks, 1000 ∣ b.timestamp :=
  claim_timestamps_whole_second 123456 [("QQ==", 7890)]
